import Mathlib

/-!
Verification of the TreeWalkViz execution core.

This file is a shallow embedding of the repository's core modules
(`src/execution-step.js`, `src/tree-model.js`, `src/traversal-generators.js`,
`src/state-manager.js`, `src/execution-engine.js`) followed by theorems about
the embedded definitions.  JavaScript objects become Lean structures, `null`
node references become an explicit `nil` tree constructor, nullable numbers
become `Option Int`, JS `Map` becomes an insertion-ordered association list,
and the mutable `StateManager` / `ExecutionEngine` classes become explicit
state-passing functions.
-/

-- ============================================================
-- EXECUTION STEP MODEL (src/execution-step.js)
-- ============================================================

/-- The `StepType` string enum of `execution-step.js`. -/
inductive StepType where
  | CALL
  | CHECK_NULL
  | PROCESS_NODE
  | RECURSE_LEFT
  | RECURSE_RIGHT
  | RETURN
deriving DecidableEq

/-- The `NodeState` string enum of `execution-step.js`:
`unvisited`, `processing`, `visited`, `finished`. -/
inductive NodeState where
  | UNVISITED
  | PROCESSING
  | VISITED
  | FINISHED
deriving DecidableEq

/-- The `StackAction` string enum of `execution-step.js`: `push`, `pop`, `none`. -/
inductive StackAction where
  | PUSH
  | POP
  | NONE
deriving DecidableEq

/-- The `ExecutionStep` record.  `nodeValue` is `number|null` in the source,
hence `Option Int` here. -/
structure ExecutionStep where
  type : StepType
  nodeValue : Option Int
  codeLine : Nat
  stackAction : StackAction
  nodeState : NodeState
  description : String
deriving DecidableEq

/-- Embeds `ExecutionStep.call(nodeValue, codeLine)`. -/
def ExecutionStep.call (nodeValue : Option Int) (codeLine : Nat) : ExecutionStep :=
  { type := StepType.CALL
    nodeValue := nodeValue
    codeLine := codeLine
    stackAction := StackAction.PUSH
    nodeState := if nodeValue.isSome then NodeState.PROCESSING else NodeState.UNVISITED
    description :=
      match nodeValue with
      | some v => "Call function with node " ++ toString v
      | none => "Call function with null" }

/-- Embeds `ExecutionStep.checkNull(nodeValue, codeLine)`. -/
def ExecutionStep.checkNull (nodeValue : Option Int) (codeLine : Nat) : ExecutionStep :=
  { type := StepType.CHECK_NULL
    nodeValue := nodeValue
    codeLine := codeLine
    stackAction := StackAction.NONE
    nodeState := if nodeValue.isSome then NodeState.PROCESSING else NodeState.UNVISITED
    description :=
      match nodeValue with
      | some v => "Check if node " ++ toString v ++ " is null (false)"
      | none => "Check if node is null (true)" }

/-- Embeds `ExecutionStep.processNode(nodeValue, codeLine)` (always called with a real value). -/
def ExecutionStep.processNode (nodeValue : Int) (codeLine : Nat) : ExecutionStep :=
  { type := StepType.PROCESS_NODE
    nodeValue := some nodeValue
    codeLine := codeLine
    stackAction := StackAction.NONE
    nodeState := NodeState.VISITED
    description := "Process/print node " ++ toString nodeValue }

/-- Embeds `ExecutionStep.recurseLeft(nodeValue, codeLine)`. -/
def ExecutionStep.recurseLeft (nodeValue : Int) (codeLine : Nat) : ExecutionStep :=
  { type := StepType.RECURSE_LEFT
    nodeValue := some nodeValue
    codeLine := codeLine
    stackAction := StackAction.NONE
    nodeState := NodeState.PROCESSING
    description := "Recurse to left child of node " ++ toString nodeValue }

/-- Embeds `ExecutionStep.recurseRight(nodeValue, codeLine)`. -/
def ExecutionStep.recurseRight (nodeValue : Int) (codeLine : Nat) : ExecutionStep :=
  { type := StepType.RECURSE_RIGHT
    nodeValue := some nodeValue
    codeLine := codeLine
    stackAction := StackAction.NONE
    nodeState := NodeState.PROCESSING
    description := "Recurse to right child of node " ++ toString nodeValue }

/-- Embeds `ExecutionStep.return(nodeValue, codeLine, isNullReturn = false)`.
`return` is reserved in Lean, so the factory is named `ret`; the default
argument is always passed explicitly. -/
def ExecutionStep.ret (nodeValue : Option Int) (codeLine : Nat) (isNullReturn : Bool) : ExecutionStep :=
  { type := StepType.RETURN
    nodeValue := nodeValue
    codeLine := codeLine
    stackAction := StackAction.POP
    nodeState := if isNullReturn then NodeState.UNVISITED else NodeState.FINISHED
    description :=
      match nodeValue with
      | some v => "Return from node " ++ toString v
      | none => "Return from null check" }

/-- The `StackFrame` record of `execution-step.js`. -/
structure StackFrame where
  functionName : String
  nodeValue : Option Int
  returnAddress : String
deriving DecidableEq

-- ============================================================
-- TREE MODEL (src/tree-model.js)
-- ============================================================

/-- A binary tree; `nil` is the JS `null` reference, `node` is a `TreeNode`
with its `value`, `left` and `right` fields.  The render-only `x`/`y`
position fields are omitted (they never feed into traversal semantics). -/
inductive TreeNode where
  | nil
  | node (value : Int) (left : TreeNode) (right : TreeNode)
deriving DecidableEq

/-- Embeds `createDefaultTree()`: root 4, children 2 and 6, leaves 1, 3, 5, 7. -/
def createDefaultTree : TreeNode :=
  TreeNode.node 4
    (TreeNode.node 2
      (TreeNode.node 1 TreeNode.nil TreeNode.nil)
      (TreeNode.node 3 TreeNode.nil TreeNode.nil))
    (TreeNode.node 6
      (TreeNode.node 5 TreeNode.nil TreeNode.nil)
      (TreeNode.node 7 TreeNode.nil TreeNode.nil))

/-- Embeds `getAllNodes(root)` followed by `.map(n => n.value)`, which is the only way
the engine consumes it: the values of the tree in preorder. -/
def getAllNodes : TreeNode → List Int
  | TreeNode.nil => []
  | TreeNode.node value left right => value :: (getAllNodes left ++ getAllNodes right)

/-- Embeds `countNodes(root)`. -/
def countNodes : TreeNode → Nat
  | TreeNode.nil => 0
  | TreeNode.node _ left right => 1 + countNodes left + countNodes right

-- ============================================================
-- TRAVERSAL GENERATORS (src/traversal-generators.js)
-- ============================================================

/-- The `*_LINES` code-line tables of `traversal-generators.js`. -/
structure TraversalLines where
  FUNCTION_ENTRY : Nat
  NULL_CHECK : Nat
  PROCESS : Nat
  RECURSE_LEFT : Nat
  RECURSE_RIGHT : Nat
  FUNCTION_EXIT : Nat

/-- Embeds `INORDER_LINES`. -/
def INORDER_LINES : TraversalLines :=
  { FUNCTION_ENTRY := 1, NULL_CHECK := 2, RECURSE_LEFT := 3
    PROCESS := 4, RECURSE_RIGHT := 5, FUNCTION_EXIT := 6 }

/-- Embeds `PREORDER_LINES`. -/
def PREORDER_LINES : TraversalLines :=
  { FUNCTION_ENTRY := 1, NULL_CHECK := 2, PROCESS := 3
    RECURSE_LEFT := 4, RECURSE_RIGHT := 5, FUNCTION_EXIT := 6 }

/-- Embeds `POSTORDER_LINES`. -/
def POSTORDER_LINES : TraversalLines :=
  { FUNCTION_ENTRY := 1, NULL_CHECK := 2, RECURSE_LEFT := 3
    RECURSE_RIGHT := 4, PROCESS := 5, FUNCTION_EXIT := 6 }

/-- Embeds `InorderGenerator._traverse(node, steps)`, with the accumulator array
returned instead of mutated: call, null-check, (null: early null return) or
recurse-left, left subtree, process, recurse-right, right subtree, return. -/
def InorderGenerator.traverse : TreeNode → List ExecutionStep
  | TreeNode.nil =>
      [ExecutionStep.call none INORDER_LINES.FUNCTION_ENTRY,
       ExecutionStep.checkNull none INORDER_LINES.NULL_CHECK,
       ExecutionStep.ret none INORDER_LINES.NULL_CHECK true]
  | TreeNode.node value left right =>
      [ExecutionStep.call (some value) INORDER_LINES.FUNCTION_ENTRY,
       ExecutionStep.checkNull (some value) INORDER_LINES.NULL_CHECK,
       ExecutionStep.recurseLeft value INORDER_LINES.RECURSE_LEFT]
      ++ InorderGenerator.traverse left
      ++ [ExecutionStep.processNode value INORDER_LINES.PROCESS,
          ExecutionStep.recurseRight value INORDER_LINES.RECURSE_RIGHT]
      ++ InorderGenerator.traverse right
      ++ [ExecutionStep.ret (some value) INORDER_LINES.FUNCTION_EXIT false]

/-- Embeds `InorderGenerator.generateSteps(root)`. -/
def InorderGenerator.generateSteps (root : TreeNode) : List ExecutionStep :=
  InorderGenerator.traverse root

/-- Embeds `PreorderGenerator._traverse(node, steps)`: process before the recursions. -/
def PreorderGenerator.traverse : TreeNode → List ExecutionStep
  | TreeNode.nil =>
      [ExecutionStep.call none PREORDER_LINES.FUNCTION_ENTRY,
       ExecutionStep.checkNull none PREORDER_LINES.NULL_CHECK,
       ExecutionStep.ret none PREORDER_LINES.NULL_CHECK true]
  | TreeNode.node value left right =>
      [ExecutionStep.call (some value) PREORDER_LINES.FUNCTION_ENTRY,
       ExecutionStep.checkNull (some value) PREORDER_LINES.NULL_CHECK,
       ExecutionStep.processNode value PREORDER_LINES.PROCESS,
       ExecutionStep.recurseLeft value PREORDER_LINES.RECURSE_LEFT]
      ++ PreorderGenerator.traverse left
      ++ [ExecutionStep.recurseRight value PREORDER_LINES.RECURSE_RIGHT]
      ++ PreorderGenerator.traverse right
      ++ [ExecutionStep.ret (some value) PREORDER_LINES.FUNCTION_EXIT false]

/-- Embeds `PreorderGenerator.generateSteps(root)`. -/
def PreorderGenerator.generateSteps (root : TreeNode) : List ExecutionStep :=
  PreorderGenerator.traverse root

/-- Embeds `PostorderGenerator._traverse(node, steps)`: process after the recursions. -/
def PostorderGenerator.traverse : TreeNode → List ExecutionStep
  | TreeNode.nil =>
      [ExecutionStep.call none POSTORDER_LINES.FUNCTION_ENTRY,
       ExecutionStep.checkNull none POSTORDER_LINES.NULL_CHECK,
       ExecutionStep.ret none POSTORDER_LINES.NULL_CHECK true]
  | TreeNode.node value left right =>
      [ExecutionStep.call (some value) POSTORDER_LINES.FUNCTION_ENTRY,
       ExecutionStep.checkNull (some value) POSTORDER_LINES.NULL_CHECK,
       ExecutionStep.recurseLeft value POSTORDER_LINES.RECURSE_LEFT]
      ++ PostorderGenerator.traverse left
      ++ [ExecutionStep.recurseRight value POSTORDER_LINES.RECURSE_RIGHT]
      ++ PostorderGenerator.traverse right
      ++ [ExecutionStep.processNode value POSTORDER_LINES.PROCESS,
          ExecutionStep.ret (some value) POSTORDER_LINES.FUNCTION_EXIT false]

/-- Embeds `PostorderGenerator.generateSteps(root)`. -/
def PostorderGenerator.generateSteps (root : TreeNode) : List ExecutionStep :=
  PostorderGenerator.traverse root

/-- Embeds `getTraversalGenerator(type)`: the `switch` dispatches on the two non-default
tags and falls back to the inorder generator for `inorder` and anything else. -/
def getTraversalGenerator (type : String) : TreeNode → List ExecutionStep :=
  if type = "preorder" then PreorderGenerator.generateSteps
  else if type = "postorder" then PostorderGenerator.generateSteps
  else InorderGenerator.generateSteps

-- ============================================================
-- STATE MANAGER (src/state-manager.js)
-- ============================================================

/-- The `AppState` record.  `nodeStates` is a JS `Map` keyed by node value;
it is modelled as an insertion-ordered association list. -/
structure AppState where
  currentStepIndex : Int
  callStack : List StackFrame
  nodeStates : List (Int × NodeState)
  highlightedLine : Nat
  traversalType : String
  isPlaying : Bool
  animationSpeed : Nat
  traversalOutput : List Int
deriving DecidableEq

/-- Embeds `Map.prototype.get(k)`: the value of the first (and in practice only)
entry whose key is `k`. -/
def mapGet (m : List (Int × NodeState)) (k : Int) : Option NodeState :=
  match m.find? (fun p => p.1 = k) with
  | some p => some p.2
  | none => none

/-- Embeds `Map.prototype.set(k, v)`: update the entry in place (keeping insertion
order) when the key is present, else append a new entry. -/
def mapSet (m : List (Int × NodeState)) (k : Int) (v : NodeState) : List (Int × NodeState) :=
  if m.any (fun p => p.1 = k) then
    m.map (fun p => if p.1 = k then (k, v) else p)
  else
    m ++ [(k, v)]

/-- Embeds `createInitialState()`. -/
def createInitialState : AppState :=
  { currentStepIndex := -1
    callStack := []
    nodeStates := []
    highlightedLine := 0
    traversalType := "inorder"
    isPlaying := false
    animationSpeed := 500
    traversalOutput := [] }

/-- Embeds `cloneState(state)`: a field-by-field deep copy, which is the identity
under value semantics. -/
def cloneState (state : AppState) : AppState :=
  { currentStepIndex := state.currentStepIndex
    callStack := state.callStack
    nodeStates := state.nodeStates
    highlightedLine := state.highlightedLine
    traversalType := state.traversalType
    isPlaying := state.isPlaying
    animationSpeed := state.animationSpeed
    traversalOutput := state.traversalOutput }

/-- Embeds `statesEqual(state1, state2)`, field for field as in the source: scalar
fields, lengths, pairwise call-stack frames (by `functionName` and
`nodeValue`), every `nodeStates` entry of `state1` looked up in `state2`,
and positional output equality. -/
def statesEqual (state1 state2 : AppState) : Bool :=
  decide (state1.currentStepIndex = state2.currentStepIndex) &&
  decide (state1.highlightedLine = state2.highlightedLine) &&
  decide (state1.traversalType = state2.traversalType) &&
  decide (state1.isPlaying = state2.isPlaying) &&
  decide (state1.animationSpeed = state2.animationSpeed) &&
  decide (state1.callStack.length = state2.callStack.length) &&
  decide (state1.nodeStates.length = state2.nodeStates.length) &&
  decide (state1.traversalOutput.length = state2.traversalOutput.length) &&
  (List.zip state1.callStack state2.callStack).all
    (fun q => decide (q.1.functionName = q.2.functionName) && decide (q.1.nodeValue = q.2.nodeValue)) &&
  state1.nodeStates.all (fun p => decide (mapGet state2.nodeStates p.1 = some p.2)) &&
  decide (state1.traversalOutput = state2.traversalOutput)

/-- A `StateManager` instance: its live `_state` and its `_history` stack.
The subscriber list is presentation-only and is not modelled.  The JS
history array pushes and pops at the tail; it is modelled head-side with
`List.cons`, the same LIFO discipline. -/
structure StateManager where
  state : AppState
  history : List AppState
deriving DecidableEq

/-- Embeds `StateManager.getState()` (the returned clone is the identity on values). -/
def StateManager.getState (m : StateManager) : AppState :=
  cloneState m.state

/-- Embeds `StateManager.setState(newState)` with a full state: installs it.  (All
engine-level partial updates are modelled by the convenience methods below.) -/
def StateManager.setState (m : StateManager) (newState : AppState) : StateManager :=
  { m with state := newState }

/-- Embeds `StateManager.pushHistory()`. -/
def StateManager.pushHistory (m : StateManager) : StateManager :=
  { m with history := cloneState m.state :: m.history }

/-- Embeds `StateManager.popHistory()`: the popped state (or `none`) together with
the manager after the pop. -/
def StateManager.popHistory (m : StateManager) : Option AppState × StateManager :=
  match m.history with
  | [] => (none, m)
  | h :: t => (some h, { m with history := t })

/-- Embeds `StateManager.reset()`. -/
def StateManager.reset (_m : StateManager) : StateManager :=
  { state := createInitialState, history := [] }

/-- Embeds `StateManager.setStepIndex(index)`. -/
def StateManager.setStepIndex (m : StateManager) (index : Int) : StateManager :=
  { m with state := { m.state with currentStepIndex := index } }

/-- Embeds `StateManager.setHighlightedLine(line)`. -/
def StateManager.setHighlightedLine (m : StateManager) (line : Nat) : StateManager :=
  { m with state := { m.state with highlightedLine := line } }

/-- Embeds `StateManager.setTraversalType(type)`. -/
def StateManager.setTraversalType (m : StateManager) (type : String) : StateManager :=
  { m with state := { m.state with traversalType := type } }

/-- Embeds `StateManager.setPlaying(isPlaying)`. -/
def StateManager.setPlaying (m : StateManager) (isPlaying : Bool) : StateManager :=
  { m with state := { m.state with isPlaying := isPlaying } }

/-- Embeds `StateManager.pushCallStack(frame)`: appends at the tail (top of stack). -/
def StateManager.pushCallStack (m : StateManager) (frame : StackFrame) : StateManager :=
  { m with state := { m.state with callStack := m.state.callStack ++ [frame] } }

/-- Embeds `StateManager.popCallStack()`: drops the tail frame; on an empty stack the
source returns `undefined` without calling `setState`, so the state is
unchanged either way. -/
def StateManager.popCallStack (m : StateManager) : StateManager :=
  { m with state := { m.state with callStack := m.state.callStack.dropLast } }

/-- Embeds `StateManager.setNodeState(nodeValue, state)`. -/
def StateManager.setNodeState (m : StateManager) (nodeValue : Int) (state : NodeState) : StateManager :=
  { m with state := { m.state with nodeStates := mapSet m.state.nodeStates nodeValue state } }

/-- Embeds `StateManager.resetNodeStates(nodeValues)`. -/
def StateManager.resetNodeStates (m : StateManager) (nodeValues : List Int) : StateManager :=
  { m with state := { m.state with
      nodeStates := nodeValues.map (fun value => (value, NodeState.UNVISITED)) } }

/-- Embeds `StateManager.addToOutput(value)`. -/
def StateManager.addToOutput (m : StateManager) (value : Int) : StateManager :=
  { m with state := { m.state with traversalOutput := m.state.traversalOutput ++ [value] } }

-- ============================================================
-- EXECUTION ENGINE (src/execution-engine.js)
-- ============================================================

/-- An `ExecutionEngine` instance: `_stateManager`, `_tree`, `_steps`.
The auto-play timer handle is presentation-side and is not modelled. -/
structure ExecutionEngine where
  stateManager : StateManager
  tree : TreeNode
  steps : List ExecutionStep
deriving DecidableEq

/-- Embeds `new ExecutionEngine(tree)` with a non-null tree argument. -/
def ExecutionEngine.new (tree : TreeNode) : ExecutionEngine :=
  { stateManager := { state := createInitialState, history := [] }
    tree := tree
    steps := [] }

/-- Embeds `new ExecutionEngine()` with the default (null) argument: uses the tree
from `createDefaultTree()`. -/
def defaultEngine : ExecutionEngine :=
  ExecutionEngine.new createDefaultTree

/-- Embeds `ExecutionEngine._getFunctionName(type)`. -/
def getFunctionName (type : String) : String :=
  if type = "preorder" then "preOrder"
  else if type = "postorder" then "postOrder"
  else "inOrder"

/-- Embeds `ExecutionEngine.pause()`: clears the (unmodelled) timer handle and sets
`isPlaying` to false. -/
def ExecutionEngine.pause (e : ExecutionEngine) : ExecutionEngine :=
  { e with stateManager := StateManager.setPlaying e.stateManager false }

/-- Embeds `ExecutionEngine._applyStep(step, stepIndex)` as a pure transformation of
the live `AppState`: every state-manager call inside `_applyStep` rewrites
only the live state (never the history), in this order: step index,
highlighted line, stack action, node state, traversal output. -/
def applyStepState (state : AppState) (step : ExecutionStep) (stepIndex : Int) : AppState :=
  let s1 := { state with currentStepIndex := stepIndex }
  let s2 := { s1 with highlightedLine := step.codeLine }
  let s3 :=
    match step.stackAction with
    | StackAction.PUSH =>
        { s2 with callStack := s2.callStack ++
            [{ functionName := getFunctionName s2.traversalType
               nodeValue := step.nodeValue
               returnAddress := "line " ++ toString step.codeLine }] }
    | StackAction.POP => { s2 with callStack := s2.callStack.dropLast }
    | StackAction.NONE => s2
  let s4 :=
    match step.nodeValue with
    | some v => { s3 with nodeStates := mapSet s3.nodeStates v step.nodeState }
    | none => s3
  match step.type, step.nodeValue with
  | StepType.PROCESS_NODE, some v => { s4 with traversalOutput := s4.traversalOutput ++ [v] }
  | _, _ => s4

/-- Embeds `ExecutionEngine._applyStep` lifted to the engine. -/
def ExecutionEngine.applyStep (e : ExecutionEngine) (step : ExecutionStep) (stepIndex : Int) : ExecutionEngine :=
  { e with stateManager :=
      { e.stateManager with state := applyStepState e.stateManager.state step stepIndex } }

/-- Embeds `ExecutionEngine.nextStep()`: boolean result and the engine afterwards. -/
def ExecutionEngine.nextStep (e : ExecutionEngine) : Bool × ExecutionEngine :=
  let nextIndex : Int := (StateManager.getState e.stateManager).currentStepIndex + 1
  if (e.steps.length : Int) ≤ nextIndex then
    (false, e)
  else
    match e.steps[nextIndex.toNat]? with
    | none => (false, e)
    | some step =>
        (true, ExecutionEngine.applyStep
          { e with stateManager := StateManager.pushHistory e.stateManager }
          step nextIndex)

/-- Embeds `ExecutionEngine.previousStep()`: boolean result and the engine afterwards. -/
def ExecutionEngine.previousStep (e : ExecutionEngine) : Bool × ExecutionEngine :=
  if (StateManager.getState e.stateManager).currentStepIndex < 0 then
    (false, e)
  else
    match StateManager.popHistory e.stateManager with
    | (some previousState, m) => (true, { e with stateManager := StateManager.setState m previousState })
    | (none, _) => (false, e)

/-- Embeds `ExecutionEngine.initialize(type)`.  The source method name is a reserved
word in Lean, so the embedding calls it `init`: pause, regenerate the steps,
reset the state manager, set the traversal type, seed all node states. -/
def ExecutionEngine.init (e : ExecutionEngine) (type : String) : ExecutionEngine :=
  let e1 := ExecutionEngine.pause e
  let e2 := { e1 with steps := getTraversalGenerator type e1.tree }
  let m1 := StateManager.reset e2.stateManager
  let m2 := StateManager.setTraversalType m1 type
  let m3 := StateManager.resetNodeStates m2 (getAllNodes e2.tree)
  { e2 with stateManager := m3 }

/-- Embeds `ExecutionEngine.reset()`: pause, reset the state manager (which clears
the history), reseed the node states; tree and steps are untouched. -/
def ExecutionEngine.reset (e : ExecutionEngine) : ExecutionEngine :=
  let e1 := ExecutionEngine.pause e
  let m1 := StateManager.reset e1.stateManager
  let m2 := StateManager.resetNodeStates m1 (getAllNodes e1.tree)
  { e1 with stateManager := m2 }

/-- The engine after `nextStep()`, discarding the boolean. -/
def nextStepE (e : ExecutionEngine) : ExecutionEngine :=
  (ExecutionEngine.nextStep e).2

/-- The engine after `previousStep()`, discarding the boolean. -/
def prevStepE (e : ExecutionEngine) : ExecutionEngine :=
  (ExecutionEngine.previousStep e).2

/-- Runs `n` consecutive `nextStep()` calls. -/
def applyN (e : ExecutionEngine) : Nat → ExecutionEngine
  | 0 => e
  | n + 1 => nextStepE (applyN e n)

/-- Runs `n` consecutive `previousStep()` calls. -/
def revertN (e : ExecutionEngine) : Nat → ExecutionEngine
  | 0 => e
  | n + 1 => revertN (prevStepE e) n

/-- An interleaved run of stepping calls: `true` is a `nextStep()`,
`false` is a `previousStep()`. -/
def runOps (e : ExecutionEngine) : List Bool → ExecutionEngine
  | [] => e
  | b :: rest => runOps (if b then nextStepE e else prevStepE e) rest

-- ============================================================
-- FIELD LEMMAS FOR THE STEP CONSTRUCTORS
-- ============================================================

@[simp] theorem call_type (v : Option Int) (l : Nat) :
    (ExecutionStep.call v l).type = StepType.CALL := rfl

@[simp] theorem call_stackAction (v : Option Int) (l : Nat) :
    (ExecutionStep.call v l).stackAction = StackAction.PUSH := rfl

@[simp] theorem call_nodeValue (v : Option Int) (l : Nat) :
    (ExecutionStep.call v l).nodeValue = v := rfl

@[simp] theorem call_codeLine (v : Option Int) (l : Nat) :
    (ExecutionStep.call v l).codeLine = l := rfl

@[simp] theorem checkNull_type (v : Option Int) (l : Nat) :
    (ExecutionStep.checkNull v l).type = StepType.CHECK_NULL := rfl

@[simp] theorem checkNull_stackAction (v : Option Int) (l : Nat) :
    (ExecutionStep.checkNull v l).stackAction = StackAction.NONE := rfl

@[simp] theorem checkNull_nodeValue (v : Option Int) (l : Nat) :
    (ExecutionStep.checkNull v l).nodeValue = v := rfl

@[simp] theorem processNode_type (v : Int) (l : Nat) :
    (ExecutionStep.processNode v l).type = StepType.PROCESS_NODE := rfl

@[simp] theorem processNode_stackAction (v : Int) (l : Nat) :
    (ExecutionStep.processNode v l).stackAction = StackAction.NONE := rfl

@[simp] theorem processNode_nodeValue (v : Int) (l : Nat) :
    (ExecutionStep.processNode v l).nodeValue = some v := rfl

@[simp] theorem recurseLeft_type (v : Int) (l : Nat) :
    (ExecutionStep.recurseLeft v l).type = StepType.RECURSE_LEFT := rfl

@[simp] theorem recurseLeft_stackAction (v : Int) (l : Nat) :
    (ExecutionStep.recurseLeft v l).stackAction = StackAction.NONE := rfl

@[simp] theorem recurseRight_type (v : Int) (l : Nat) :
    (ExecutionStep.recurseRight v l).type = StepType.RECURSE_RIGHT := rfl

@[simp] theorem recurseRight_stackAction (v : Int) (l : Nat) :
    (ExecutionStep.recurseRight v l).stackAction = StackAction.NONE := rfl

@[simp] theorem ret_type (v : Option Int) (l : Nat) (b : Bool) :
    (ExecutionStep.ret v l b).type = StepType.RETURN := rfl

@[simp] theorem ret_stackAction (v : Option Int) (l : Nat) (b : Bool) :
    (ExecutionStep.ret v l b).stackAction = StackAction.POP := rfl

@[simp] theorem ret_nodeValue (v : Option Int) (l : Nat) (b : Bool) :
    (ExecutionStep.ret v l b).nodeValue = v := rfl

-- ============================================================
-- C8: constructor field policy
-- ============================================================

/-- The stack-action/type consistency predicate of the spec: `PUSH` exactly on
`CALL`, `POP` exactly on `RETURN`, `NONE` everywhere else. -/
def stackActionConsistent (s : ExecutionStep) : Prop :=
  (s.stackAction = StackAction.PUSH ↔ s.type = StepType.CALL) ∧
  (s.stackAction = StackAction.POP ↔ s.type = StepType.RETURN) ∧
  (s.type ≠ StepType.CALL → s.type ≠ StepType.RETURN → s.stackAction = StackAction.NONE)

/-- C8: every `ExecutionStep` built by the six named constructors has
`stackAction` `PUSH` iff its type is `CALL`, `POP` iff its type is `RETURN`,
and `NONE` for every other type; and the `nodeState` of each constructor
follows the fixed policy: `call`/`checkNull` give `PROCESSING` when the node
value is present and `UNVISITED` when absent, `processNode` gives `VISITED`,
`recurseLeft`/`recurseRight` give `PROCESSING`, and `return` gives `FINISHED`
unless it is a null return, in which case `UNVISITED`. -/
theorem step_constructor_policy (v : Option Int) (w : Int) (line : Nat) (b : Bool) :
    stackActionConsistent (ExecutionStep.call v line) ∧
    stackActionConsistent (ExecutionStep.checkNull v line) ∧
    stackActionConsistent (ExecutionStep.processNode w line) ∧
    stackActionConsistent (ExecutionStep.recurseLeft w line) ∧
    stackActionConsistent (ExecutionStep.recurseRight w line) ∧
    stackActionConsistent (ExecutionStep.ret v line b) ∧
    (ExecutionStep.call v line).nodeState =
      (if v.isSome then NodeState.PROCESSING else NodeState.UNVISITED) ∧
    (ExecutionStep.checkNull v line).nodeState =
      (if v.isSome then NodeState.PROCESSING else NodeState.UNVISITED) ∧
    (ExecutionStep.processNode w line).nodeState = NodeState.VISITED ∧
    (ExecutionStep.recurseLeft w line).nodeState = NodeState.PROCESSING ∧
    (ExecutionStep.recurseRight w line).nodeState = NodeState.PROCESSING ∧
    (ExecutionStep.ret v line b).nodeState =
      (if b then NodeState.UNVISITED else NodeState.FINISHED) := by
  refine ⟨?_, ?_, ?_, ?_, ?_, ?_, rfl, rfl, rfl, rfl, rfl, rfl⟩ <;>
    refine ⟨?_, ?_, ?_⟩ <;> simp [ExecutionStep.call, ExecutionStep.checkNull,
      ExecutionStep.processNode, ExecutionStep.recurseLeft,
      ExecutionStep.recurseRight, ExecutionStep.ret]

-- ============================================================
-- STACK BALANCE MACHINERY (for C1 / C4)
-- ============================================================

/-- The net effect of a stack action on the call-stack depth:
a push adds one frame, a pop removes one, anything else leaves it. -/
def netAction : StackAction → Int
  | StackAction.PUSH => 1
  | StackAction.POP => -1
  | StackAction.NONE => 0

/-- The running net (pushes minus pops) of a step sequence. -/
def net : List ExecutionStep → Int
  | [] => 0
  | s :: rest => netAction s.stackAction + net rest

@[simp] theorem net_nil : net [] = 0 := rfl

@[simp] theorem net_cons (s : ExecutionStep) (rest : List ExecutionStep) :
    net (s :: rest) = netAction s.stackAction + net rest := rfl

@[simp] theorem net_append (a b : List ExecutionStep) : net (a ++ b) = net a + net b := by
  induction a with
  | nil => simp
  | cons s rest ih => simp [ih]; ring

/-- The number of steps of a given type in a sequence. -/
def countType (t : StepType) : List ExecutionStep → Nat
  | [] => 0
  | s :: rest => (if s.type = t then 1 else 0) + countType t rest

@[simp] theorem countType_nil (t : StepType) : countType t [] = 0 := rfl

@[simp] theorem countType_cons (t : StepType) (s : ExecutionStep) (rest : List ExecutionStep) :
    countType t (s :: rest) = (if s.type = t then 1 else 0) + countType t rest := rfl

@[simp] theorem countType_append (t : StepType) (a b : List ExecutionStep) :
    countType t (a ++ b) = countType t a + countType t b := by
  induction a with
  | nil => simp
  | cons s rest ih => simp [ih]; ring

/-- Executable running-net check: starting from depth `acc`, the depth stays
nonnegative after every step of the list. -/
def chk (acc : Int) : List ExecutionStep → Bool
  | [] => true
  | s :: rest =>
      decide (0 ≤ acc + netAction s.stackAction) && chk (acc + netAction s.stackAction) rest

@[simp] theorem chk_nil (acc : Int) : chk acc [] = true := rfl

@[simp] theorem chk_cons (acc : Int) (s : ExecutionStep) (rest : List ExecutionStep) :
    chk acc (s :: rest) =
      (decide (0 ≤ acc + netAction s.stackAction) && chk (acc + netAction s.stackAction) rest) := rfl

@[simp] theorem chk_append (a b : List ExecutionStep) :
    ∀ acc : Int, chk acc (a ++ b) = (chk acc a && chk (acc + net a) b) := by
  induction a with
  | nil => intro acc; simp
  | cons s rest ih =>
      intro acc
      simp [ih, Bool.and_assoc, add_assoc]

/-- From the executable check, every prefix has nonnegative running net. -/
theorem chk_take (l : List ExecutionStep) :
    ∀ acc : Int, chk acc l = true → 0 ≤ acc → ∀ n : Nat, 0 ≤ acc + net (l.take n) := by
  induction l with
  | nil => intro acc _ hacc n; simpa using hacc
  | cons s rest ih =>
      intro acc h hacc n
      match n with
      | 0 => simpa using hacc
      | n + 1 =>
          simp only [chk_cons, Bool.and_eq_true, decide_eq_true_eq] at h
          have h3 := ih (acc + netAction s.stackAction) h.2 h.1 n
          simp only [List.take_succ_cons, net_cons]
          omega

/-- Inorder generator: total net zero, and the running net stays nonnegative
from any nonnegative starting depth. -/
theorem inorder_balance (t : TreeNode) :
    net (InorderGenerator.traverse t) = 0 ∧
    ∀ acc : Int, 0 ≤ acc → chk acc (InorderGenerator.traverse t) = true := by
  induction t with
  | nil =>
      refine ⟨rfl, ?_⟩
      intro acc hacc
      simp [InorderGenerator.traverse, netAction]
      omega
  | node v l r ihl ihr =>
      obtain ⟨hl0, hlc⟩ := ihl
      obtain ⟨hr0, hrc⟩ := ihr
      constructor
      · simp [InorderGenerator.traverse, hl0, hr0, netAction]
      · intro acc hacc
        have h1 : chk (acc + 1) (InorderGenerator.traverse l) = true := hlc _ (by omega)
        have h2 : chk (acc + 1) (InorderGenerator.traverse r) = true := hrc _ (by omega)
        simp [InorderGenerator.traverse, netAction, hl0, hr0, h1, h2]
        omega

/-- Preorder generator: same balance facts. -/
theorem preorder_balance (t : TreeNode) :
    net (PreorderGenerator.traverse t) = 0 ∧
    ∀ acc : Int, 0 ≤ acc → chk acc (PreorderGenerator.traverse t) = true := by
  induction t with
  | nil =>
      refine ⟨rfl, ?_⟩
      intro acc hacc
      simp [PreorderGenerator.traverse, netAction]
      omega
  | node v l r ihl ihr =>
      obtain ⟨hl0, hlc⟩ := ihl
      obtain ⟨hr0, hrc⟩ := ihr
      constructor
      · simp [PreorderGenerator.traverse, hl0, hr0, netAction]
      · intro acc hacc
        have h1 : chk (acc + 1) (PreorderGenerator.traverse l) = true := hlc _ (by omega)
        have h2 : chk (acc + 1) (PreorderGenerator.traverse r) = true := hrc _ (by omega)
        simp [PreorderGenerator.traverse, netAction, hl0, hr0, h1, h2]
        omega

/-- Postorder generator: same balance facts. -/
theorem postorder_balance (t : TreeNode) :
    net (PostorderGenerator.traverse t) = 0 ∧
    ∀ acc : Int, 0 ≤ acc → chk acc (PostorderGenerator.traverse t) = true := by
  induction t with
  | nil =>
      refine ⟨rfl, ?_⟩
      intro acc hacc
      simp [PostorderGenerator.traverse, netAction]
      omega
  | node v l r ihl ihr =>
      obtain ⟨hl0, hlc⟩ := ihl
      obtain ⟨hr0, hrc⟩ := ihr
      constructor
      · simp [PostorderGenerator.traverse, hl0, hr0, netAction]
      · intro acc hacc
        have h1 : chk (acc + 1) (PostorderGenerator.traverse l) = true := hlc _ (by omega)
        have h2 : chk (acc + 1) (PostorderGenerator.traverse r) = true := hrc _ (by omega)
        simp [PostorderGenerator.traverse, netAction, hl0, hr0, h1, h2]
        omega

/-- Inorder generator: exactly `2N + 1` CALL steps and `2N + 1` RETURN steps
for a tree with `N` real nodes. -/
theorem inorder_counts (t : TreeNode) :
    countType StepType.CALL (InorderGenerator.traverse t) = 2 * countNodes t + 1 ∧
    countType StepType.RETURN (InorderGenerator.traverse t) = 2 * countNodes t + 1 := by
  induction t with
  | nil => exact ⟨rfl, rfl⟩
  | node v l r ihl ihr =>
      obtain ⟨a, b⟩ := ihl
      obtain ⟨c, d⟩ := ihr
      constructor
      · simp [InorderGenerator.traverse, a, c, countNodes]
        ring
      · simp [InorderGenerator.traverse, b, d, countNodes]
        ring

/-- Preorder generator: the same step counts. -/
theorem preorder_counts (t : TreeNode) :
    countType StepType.CALL (PreorderGenerator.traverse t) = 2 * countNodes t + 1 ∧
    countType StepType.RETURN (PreorderGenerator.traverse t) = 2 * countNodes t + 1 := by
  induction t with
  | nil => exact ⟨rfl, rfl⟩
  | node v l r ihl ihr =>
      obtain ⟨a, b⟩ := ihl
      obtain ⟨c, d⟩ := ihr
      constructor
      · simp [PreorderGenerator.traverse, a, c, countNodes]
        ring
      · simp [PreorderGenerator.traverse, b, d, countNodes]
        ring

/-- Postorder generator: the same step counts. -/
theorem postorder_counts (t : TreeNode) :
    countType StepType.CALL (PostorderGenerator.traverse t) = 2 * countNodes t + 1 ∧
    countType StepType.RETURN (PostorderGenerator.traverse t) = 2 * countNodes t + 1 := by
  induction t with
  | nil => exact ⟨rfl, rfl⟩
  | node v l r ihl ihr =>
      obtain ⟨a, b⟩ := ihl
      obtain ⟨c, d⟩ := ihr
      constructor
      · simp [PostorderGenerator.traverse, a, c, countNodes]
        ring
      · simp [PostorderGenerator.traverse, b, d, countNodes]
        ring

/-- Dispatch of `getTraversalGenerator` reduced to the three generators. -/
theorem getTraversalGenerator_cases (type : String) (t : TreeNode) :
    getTraversalGenerator type t = InorderGenerator.traverse t ∨
    getTraversalGenerator type t = PreorderGenerator.traverse t ∨
    getTraversalGenerator type t = PostorderGenerator.traverse t := by
  by_cases h1 : type = "preorder"
  · right; left
    simp [getTraversalGenerator, h1, PreorderGenerator.generateSteps]
  · by_cases h2 : type = "postorder"
    · right; right
      simp [getTraversalGenerator, h1, h2, PostorderGenerator.generateSteps]
    · left
      simp [getTraversalGenerator, h1, h2, InorderGenerator.generateSteps]

/-- C1: for every binary tree (including the absent root, the `nil` tree) and
every traversal order tag (every string, covering inorder, preorder and
postorder as well as the inorder default), the generated step sequence has
equally many CALL and RETURN steps, the running net of push stack-actions
minus pop stack-actions is nonnegative on every prefix, and that net is
exactly 0 over the whole sequence. -/
theorem stack_balance (t : TreeNode) (type : String) :
    countType StepType.CALL (getTraversalGenerator type t) =
      countType StepType.RETURN (getTraversalGenerator type t) ∧
    (∀ n : Nat, 0 ≤ net ((getTraversalGenerator type t).take n)) ∧
    net (getTraversalGenerator type t) = 0 := by
  rcases getTraversalGenerator_cases type t with h | h | h <;> rw [h]
  · obtain ⟨h0, hc⟩ := inorder_balance t
    obtain ⟨c1, c2⟩ := inorder_counts t
    refine ⟨c1.trans c2.symm, ?_, h0⟩
    intro n
    have := chk_take _ 0 (hc 0 le_rfl) le_rfl n
    simpa using this
  · obtain ⟨h0, hc⟩ := preorder_balance t
    obtain ⟨c1, c2⟩ := preorder_counts t
    refine ⟨c1.trans c2.symm, ?_, h0⟩
    intro n
    have := chk_take _ 0 (hc 0 le_rfl) le_rfl n
    simpa using this
  · obtain ⟨h0, hc⟩ := postorder_balance t
    obtain ⟨c1, c2⟩ := postorder_counts t
    refine ⟨c1.trans c2.symm, ?_, h0⟩
    intro n
    have := chk_take _ 0 (hc 0 le_rfl) le_rfl n
    simpa using this

/-- C4: for every tree with `N` real nodes and every traversal order tag, the
generated sequence has exactly `2N + 1` CALL steps and `2N + 1` RETURN steps;
in particular, the default 7-node tree gives 15 of each. -/
theorem call_return_counts (t : TreeNode) (type : String) :
    countType StepType.CALL (getTraversalGenerator type t) = 2 * countNodes t + 1 ∧
    countType StepType.RETURN (getTraversalGenerator type t) = 2 * countNodes t + 1 ∧
    countNodes createDefaultTree = 7 ∧
    countType StepType.CALL (getTraversalGenerator "inorder" createDefaultTree) = 15 ∧
    countType StepType.RETURN (getTraversalGenerator "inorder" createDefaultTree) = 15 := by
  refine ⟨?_, ?_, by decide, by decide, by decide⟩ <;>
    rcases getTraversalGenerator_cases type t with h | h | h <;> rw [h]
  · exact (inorder_counts t).1
  · exact (preorder_counts t).1
  · exact (postorder_counts t).1
  · exact (inorder_counts t).2
  · exact (preorder_counts t).2
  · exact (postorder_counts t).2

-- ============================================================
-- STATE / ENGINE STEP LEMMAS (for C2 / C5 / C7)
-- ============================================================

/-- Cloning via `cloneState` is the identity under value semantics. -/
@[simp] theorem cloneState_eq (state : AppState) : cloneState state = state := rfl

/-- Reading `getState` returns (a clone of) the live state. -/
@[simp] theorem getState_eq (m : StateManager) : StateManager.getState m = m.state := rfl

/-- Looking up the key just written by `mapSet` yields the written value. -/
theorem mapGet_mapSet (m : List (Int × NodeState)) (k : Int) (v : NodeState) :
    mapGet (mapSet m k v) k = some v := by
  induction m with
  | nil => simp [mapSet, mapGet]
  | cons p rest ih =>
      by_cases hpk : p.1 = k
      · simp [mapSet, mapGet, hpk]
      · by_cases hany : rest.any (fun q => decide (q.1 = k))
        · have hms : mapSet (p :: rest) k v =
              p :: rest.map (fun q => if q.1 = k then (k, v) else q) := by
            simp [mapSet, hpk, hany]
          have hms2 : mapSet rest k v = rest.map (fun q => if q.1 = k then (k, v) else q) := by
            simp [mapSet, hany]
          rw [hms, mapGet]
          rw [List.find?_cons_of_neg _ (by simpa using hpk)]
          rw [hms2, mapGet] at ih
          exact ih
        · have hms : mapSet (p :: rest) k v = p :: (rest ++ [(k, v)]) := by
            simp [mapSet, hpk, hany]
          have hms2 : mapSet rest k v = rest ++ [(k, v)] := by
            simp [mapSet, hany]
          rw [hms, mapGet]
          rw [List.find?_cons_of_neg _ (by simpa using hpk)]
          rw [hms2, mapGet] at ih
          exact ih

/-- Applying `_applyStep` writes the given index into `currentStepIndex`. -/
theorem applyStepState_currentStepIndex (s : AppState) (step : ExecutionStep) (i : Int) :
    (applyStepState s step i).currentStepIndex = i := by
  cases hsa : step.stackAction <;> cases hnv : step.nodeValue <;> cases ht : step.type <;>
    simp [applyStepState, hsa, hnv, ht]

/-- Applying `_applyStep` writes the step's `codeLine` into `highlightedLine`. -/
theorem applyStepState_highlightedLine (s : AppState) (step : ExecutionStep) (i : Int) :
    (applyStepState s step i).highlightedLine = step.codeLine := by
  cases hsa : step.stackAction <;> cases hnv : step.nodeValue <;> cases ht : step.type <;>
    simp [applyStepState, hsa, hnv, ht]

/-- Applying `_applyStep` never changes the traversal type. -/
theorem applyStepState_traversalType (s : AppState) (step : ExecutionStep) (i : Int) :
    (applyStepState s step i).traversalType = s.traversalType := by
  cases hsa : step.stackAction <;> cases hnv : step.nodeValue <;> cases ht : step.type <;>
    simp [applyStepState, hsa, hnv, ht]

/-- The node-state map after `_applyStep`: updated at the step's node value
when present, untouched when the step carries no node value. -/
theorem applyStepState_nodeStates (s : AppState) (step : ExecutionStep) (i : Int) :
    (applyStepState s step i).nodeStates =
      (match step.nodeValue with
       | some v => mapSet s.nodeStates v step.nodeState
       | none => s.nodeStates) := by
  cases hsa : step.stackAction <;> cases hnv : step.nodeValue <;> cases ht : step.type <;>
    simp [applyStepState, hsa, hnv, ht]

/-- Successful `nextStep()`: when the next index holds a step, the call returns
true, snapshots the old state on the history, and applies that step. -/
theorem nextStep_succ (e : ExecutionEngine) (step : ExecutionStep)
    (h1 : -1 ≤ e.stateManager.state.currentStepIndex)
    (hs : e.steps[(e.stateManager.state.currentStepIndex + 1).toNat]? = some step) :
    ExecutionEngine.nextStep e =
      (true,
        { e with stateManager :=
            { state := applyStepState e.stateManager.state step
                (e.stateManager.state.currentStepIndex + 1)
              history := e.stateManager.state :: e.stateManager.history } }) := by
  have hb : (e.stateManager.state.currentStepIndex + 1).toNat < e.steps.length := by
    by_contra hb
    rw [List.getElem?_eq_none (Nat.le_of_not_lt hb)] at hs
    cases hs
  have hlt : e.stateManager.state.currentStepIndex + 1 < (e.steps.length : Int) := by omega
  unfold ExecutionEngine.nextStep
  rw [getState_eq, if_neg (by omega)]
  rw [hs]
  simp [ExecutionEngine.applyStep, StateManager.pushHistory]

/-- Calling `nextStep()` at (or past) the end: returns false and leaves the whole
engine untouched. -/
theorem nextStep_atEnd (e : ExecutionEngine)
    (h : (e.steps.length : Int) ≤ e.stateManager.state.currentStepIndex + 1) :
    ExecutionEngine.nextStep e = (false, e) := by
  unfold ExecutionEngine.nextStep
  rw [getState_eq, if_pos h]

/-- A successful `nextStep()` is exactly undone by `previousStep()`. -/
theorem prev_next_cancel (e : ExecutionEngine) (step : ExecutionStep)
    (h1 : -1 ≤ e.stateManager.state.currentStepIndex)
    (hs : e.steps[(e.stateManager.state.currentStepIndex + 1).toNat]? = some step) :
    prevStepE (nextStepE e) = e := by
  have hnext := nextStep_succ e step h1 hs
  have hidx : (nextStepE e).stateManager.state.currentStepIndex =
      e.stateManager.state.currentStepIndex + 1 := by
    rw [nextStepE, hnext]
    exact applyStepState_currentStepIndex _ _ _
  rw [nextStepE, hnext]
  unfold prevStepE ExecutionEngine.previousStep
  rw [getState_eq]
  rw [if_neg (by
    simp only []
    rw [applyStepState_currentStepIndex]
    omega)]
  simp [StateManager.popHistory, StateManager.setState]

-- ============================================================
-- C5: step monotonicity / boundary exhaustion
-- ============================================================

/-- C5: for an engine whose cursor is in the reachable range (at least −1):
when the cursor is at the last generated step or past it (in particular when
the step sequence is empty), `nextStep()` returns false and leaves the
engine — its whole `AppState` and its history — unchanged; otherwise it
returns true and the new `currentStepIndex` is the old one plus exactly 1. -/
theorem nextStep_monotonicity (e : ExecutionEngine)
    (h : -1 ≤ e.stateManager.state.currentStepIndex) :
    (((e.steps.length : Int) ≤ e.stateManager.state.currentStepIndex + 1) →
        ExecutionEngine.nextStep e = (false, e)) ∧
    ((e.stateManager.state.currentStepIndex + 1 < (e.steps.length : Int)) →
        (ExecutionEngine.nextStep e).1 = true ∧
        (ExecutionEngine.nextStep e).2.stateManager.state.currentStepIndex =
          e.stateManager.state.currentStepIndex + 1) := by
  constructor
  · intro hend
    exact nextStep_atEnd e hend
  · intro hlt
    have hb : (e.stateManager.state.currentStepIndex + 1).toNat < e.steps.length := by omega
    obtain ⟨step, hs⟩ : ∃ s, e.steps[(e.stateManager.state.currentStepIndex + 1).toNat]? = some s :=
      ⟨_, List.getElem?_eq_getElem hb⟩
    rw [nextStep_succ e step h hs]
    exact ⟨rfl, applyStepState_currentStepIndex _ _ _⟩

/-- Witness for C5 at the freshly initialized default engine. -/
theorem nextStep_monotonicity_witness :
    (-1 ≤ (ExecutionEngine.init defaultEngine "inorder").stateManager.state.currentStepIndex) ∧
    ((((ExecutionEngine.init defaultEngine "inorder").steps.length : Int) ≤
        (ExecutionEngine.init defaultEngine "inorder").stateManager.state.currentStepIndex + 1) →
        ExecutionEngine.nextStep (ExecutionEngine.init defaultEngine "inorder") =
          (false, ExecutionEngine.init defaultEngine "inorder")) ∧
    (((ExecutionEngine.init defaultEngine "inorder").stateManager.state.currentStepIndex + 1 <
        ((ExecutionEngine.init defaultEngine "inorder").steps.length : Int)) →
        (ExecutionEngine.nextStep (ExecutionEngine.init defaultEngine "inorder")).1 = true ∧
        (ExecutionEngine.nextStep
            (ExecutionEngine.init defaultEngine "inorder")).2.stateManager.state.currentStepIndex =
          (ExecutionEngine.init defaultEngine "inorder").stateManager.state.currentStepIndex + 1) :=
  ⟨by decide, nextStep_monotonicity (ExecutionEngine.init defaultEngine "inorder") (by decide)⟩

-- ============================================================
-- C7: synchronization of highlighted line and node state
-- ============================================================

/-- C7: after every successful `nextStep()` (the next index holds a step and
the cursor was in the reachable range), the state's `highlightedLine` equals
the applied step's `codeLine`, and when that step carries a node value the
`nodeStates` entry for that value equals the step's `nodeState`. -/
theorem step_synchronization (e : ExecutionEngine) (step : ExecutionStep)
    (h1 : -1 ≤ e.stateManager.state.currentStepIndex)
    (hs : e.steps[(e.stateManager.state.currentStepIndex + 1).toNat]? = some step) :
    (nextStepE e).stateManager.state.highlightedLine = step.codeLine ∧
    ∀ v : Int, step.nodeValue = some v →
      mapGet (nextStepE e).stateManager.state.nodeStates v = some step.nodeState := by
  rw [nextStepE, nextStep_succ e step h1 hs]
  constructor
  · exact applyStepState_highlightedLine _ _ _
  · intro v hv
    have hns := applyStepState_nodeStates e.stateManager.state step
      (e.stateManager.state.currentStepIndex + 1)
    rw [hv] at hns
    simp only [] at hns
    rw [hns]
    exact mapGet_mapSet _ _ _

/-- Witness for C7: the first generated step of the default inorder run is the
root call, and after applying it the highlighted line is its code line and
node 4 is marked with its node state. -/
theorem step_synchronization_witness :
    (-1 ≤ (ExecutionEngine.init defaultEngine "inorder").stateManager.state.currentStepIndex) ∧
    ((ExecutionEngine.init defaultEngine "inorder").steps[
        ((ExecutionEngine.init defaultEngine "inorder").stateManager.state.currentStepIndex + 1).toNat]? =
      some (ExecutionStep.call (some 4) 1)) ∧
    ((nextStepE (ExecutionEngine.init defaultEngine "inorder")).stateManager.state.highlightedLine =
        (ExecutionStep.call (some 4) 1).codeLine ∧
      ∀ v : Int, (ExecutionStep.call (some 4) 1).nodeValue = some v →
        mapGet (nextStepE (ExecutionEngine.init defaultEngine "inorder")).stateManager.state.nodeStates v =
          some (ExecutionStep.call (some 4) 1).nodeState) :=
  ⟨by decide, by decide,
    step_synchronization (ExecutionEngine.init defaultEngine "inorder")
      (ExecutionStep.call (some 4) 1) (by decide) (by decide)⟩

-- ============================================================
-- C2: undo exactness
-- ============================================================

/-- A `nextStep()` call never changes the generated step sequence. -/
theorem nextStepE_steps (e : ExecutionEngine) : (nextStepE e).steps = e.steps := by
  unfold nextStepE ExecutionEngine.nextStep
  rw [getState_eq]
  by_cases h : (e.steps.length : Int) ≤ e.stateManager.state.currentStepIndex + 1
  · rw [if_pos h]
  · rw [if_neg h]
    cases hs : e.steps[(e.stateManager.state.currentStepIndex + 1).toNat]? <;>
      simp [ExecutionEngine.applyStep]

/-- After `n` in-range forward steps the cursor has advanced by exactly `n`
and the step sequence is unchanged. -/
theorem applyN_spec (n : Nat) : ∀ e : ExecutionEngine,
    -1 ≤ e.stateManager.state.currentStepIndex →
    e.stateManager.state.currentStepIndex + n < (e.steps.length : Int) →
    (applyN e n).stateManager.state.currentStepIndex =
      e.stateManager.state.currentStepIndex + n ∧
    (applyN e n).steps = e.steps := by
  induction n with
  | zero => intro e _ _; simp [applyN]
  | succ n ih =>
      intro e h1 h2
      obtain ⟨hidx, hsteps⟩ := ih e h1 (by push_cast at h2 ⊢; omega)
      have hE1 : -1 ≤ (applyN e n).stateManager.state.currentStepIndex := by
        rw [hidx]; omega
      have hb : ((applyN e n).stateManager.state.currentStepIndex + 1).toNat <
          (applyN e n).steps.length := by
        rw [hidx, hsteps]
        push_cast at h2
        omega
      obtain ⟨step, hs⟩ : ∃ s,
          (applyN e n).steps[((applyN e n).stateManager.state.currentStepIndex + 1).toNat]? =
            some s :=
        ⟨_, List.getElem?_eq_getElem hb⟩
      have hstep : applyN e (n + 1) = nextStepE (applyN e n) := rfl
      constructor
      · rw [hstep, nextStepE, nextStep_succ _ step hE1 hs]
        show (applyStepState _ _ _).currentStepIndex = _
        rw [applyStepState_currentStepIndex, hidx]
        push_cast
        ring
      · rw [hstep, nextStepE_steps, hsteps]

/-- Performing `n` in-range forward steps followed by `n` backward steps restores the
engine — its state, history, steps and tree — exactly. -/
theorem revert_applyN (n : Nat) : ∀ e : ExecutionEngine,
    -1 ≤ e.stateManager.state.currentStepIndex →
    e.stateManager.state.currentStepIndex + n < (e.steps.length : Int) →
    revertN (applyN e n) n = e := by
  induction n with
  | zero => intro e _ _; rfl
  | succ n ih =>
      intro e h1 h2
      obtain ⟨hidx, hsteps⟩ := applyN_spec n e h1 (by push_cast at h2 ⊢; omega)
      have hE1 : -1 ≤ (applyN e n).stateManager.state.currentStepIndex := by
        rw [hidx]; omega
      have hb : ((applyN e n).stateManager.state.currentStepIndex + 1).toNat <
          (applyN e n).steps.length := by
        rw [hidx, hsteps]
        push_cast at h2
        omega
      obtain ⟨step, hs⟩ : ∃ s,
          (applyN e n).steps[((applyN e n).stateManager.state.currentStepIndex + 1).toNat]? =
            some s :=
        ⟨_, List.getElem?_eq_getElem hb⟩
      have hstep : applyN e (n + 1) = nextStepE (applyN e n) := rfl
      have hrev : revertN (nextStepE (applyN e n)) (n + 1) =
          revertN (prevStepE (nextStepE (applyN e n))) n := rfl
      rw [hstep, hrev, prev_next_cancel _ step hE1 hs]
      exact ih e h1 (by push_cast at h2 ⊢; omega)

/-- Zipping a frame list with itself satisfies the pairwise frame comparison. -/
theorem zip_self_all (l : List StackFrame) :
    (List.zip l l).all
      (fun q => decide (q.1.functionName = q.2.functionName) &&
        decide (q.1.nodeValue = q.2.nodeValue)) = true := by
  induction l with
  | nil => rfl
  | cons f rest ih =>
      simp only [List.zip_cons_cons, List.all_cons, Bool.and_eq_true, decide_eq_true_eq]
      exact ⟨by simp, ih⟩

/-- With pairwise-distinct keys, looking each entry up in the map itself finds
that entry's value. -/
theorem mapGet_self_of_nodup (m : List (Int × NodeState))
    (h : (m.map Prod.fst).Nodup) : ∀ p ∈ m, mapGet m p.1 = some p.2 := by
  induction m with
  | nil => intro p hp; cases hp
  | cons q rest ih =>
      rw [List.map_cons, List.nodup_cons] at h
      intro p hp
      rcases List.mem_cons.mp hp with rfl | hp2
      · simp [mapGet]
      · have hne : ¬ q.1 = p.1 := by
          intro hh
          exact h.1 (hh ▸ List.mem_map_of_mem Prod.fst hp2)
        rw [mapGet, List.find?_cons_of_neg _ (by simpa using hne)]
        exact ih h.2 p hp2

/-- Equality under `statesEqual` is reflexive on any state whose node-state map has
pairwise-distinct keys (always true of states the engine produces, since the
map is seeded from the tree's node values and only ever updated in place). -/
theorem statesEqual_refl (s : AppState) (h : (s.nodeStates.map Prod.fst).Nodup) :
    statesEqual s s = true := by
  unfold statesEqual
  have h1 := zip_self_all s.callStack
  have h2 : s.nodeStates.all (fun p => decide (mapGet s.nodeStates p.1 = some p.2)) = true := by
    rw [List.all_eq_true]
    intro p hp
    simpa using mapGet_self_of_nodup s.nodeStates h p hp
  simp [h1, h2]

/-- C2: from any reachable engine configuration (cursor at least −1,
node-state keys distinct), performing `N` successful `nextStep()` calls — the
bound says all `N` are in range — followed by `N` `previousStep()` calls
yields an `AppState` equal under `statesEqual` to the state before the first
of those calls. -/
theorem undo_exactness (e : ExecutionEngine) (n : Nat)
    (h1 : -1 ≤ e.stateManager.state.currentStepIndex)
    (h2 : e.stateManager.state.currentStepIndex + n < (e.steps.length : Int))
    (h3 : (e.stateManager.state.nodeStates.map Prod.fst).Nodup) :
    statesEqual (revertN (applyN e n) n).stateManager.state e.stateManager.state = true := by
  rw [revert_applyN n e h1 h2]
  exact statesEqual_refl _ h3

/-- Witness for C2: three forward steps and three undos on the default
inorder run. -/
theorem undo_exactness_witness :
    (-1 ≤ (ExecutionEngine.init defaultEngine "inorder").stateManager.state.currentStepIndex) ∧
    ((ExecutionEngine.init defaultEngine "inorder").stateManager.state.currentStepIndex + (3 : Nat) <
      ((ExecutionEngine.init defaultEngine "inorder").steps.length : Int)) ∧
    (((ExecutionEngine.init defaultEngine "inorder").stateManager.state.nodeStates.map Prod.fst).Nodup) ∧
    statesEqual
      (revertN (applyN (ExecutionEngine.init defaultEngine "inorder") 3) 3).stateManager.state
      (ExecutionEngine.init defaultEngine "inorder").stateManager.state = true :=
  ⟨by decide, by decide, by decide,
    undo_exactness (ExecutionEngine.init defaultEngine "inorder") 3 (by decide) (by decide) (by decide)⟩

-- ============================================================
-- C9: reset completeness
-- ============================================================

/-- Looking up any listed value in the freshly seeded node-state map yields
`UNVISITED`. -/
theorem mapGet_seed (values : List Int) (v : Int) (hv : v ∈ values) :
    mapGet (values.map (fun value => (value, NodeState.UNVISITED))) v =
      some NodeState.UNVISITED := by
  induction values with
  | nil => cases hv
  | cons x rest ih =>
      rcases List.mem_cons.mp hv with rfl | hv2
      · simp [mapGet]
      · by_cases hx : x = v
        · subst hx
          simp [mapGet]
        · rw [List.map_cons, mapGet, List.find?_cons_of_neg _ (by simpa using hx)]
          rw [mapGet] at ih
          exact ih hv2

/-- C9: after any engine history, `reset()` yields step index −1, an empty
call stack, every tracked tree-node value mapped to `UNVISITED`, highlighted
line 0, empty traversal output and empty history, while the tree and the
previously generated step sequence are unchanged. -/
theorem reset_completeness (e : ExecutionEngine) :
    (ExecutionEngine.reset e).stateManager.state.currentStepIndex = -1 ∧
    (ExecutionEngine.reset e).stateManager.state.callStack = [] ∧
    (∀ v ∈ getAllNodes e.tree,
      mapGet (ExecutionEngine.reset e).stateManager.state.nodeStates v =
        some NodeState.UNVISITED) ∧
    (ExecutionEngine.reset e).stateManager.state.highlightedLine = 0 ∧
    (ExecutionEngine.reset e).stateManager.state.traversalOutput = [] ∧
    (ExecutionEngine.reset e).stateManager.history = [] ∧
    (ExecutionEngine.reset e).tree = e.tree ∧
    (ExecutionEngine.reset e).steps = e.steps := by
  refine ⟨rfl, rfl, ?_, rfl, rfl, rfl, rfl, rfl⟩
  intro v hv
  exact mapGet_seed (getAllNodes e.tree) v hv

-- ============================================================
-- C10: reset forgets the traversal type
-- ============================================================

/-- The call stack after `_applyStep`: a frame named after the current
traversal type is appended on `PUSH`, the top frame is dropped on `POP`,
and nothing changes otherwise. -/
theorem applyStepState_callStack (s : AppState) (step : ExecutionStep) (i : Int) :
    (applyStepState s step i).callStack =
      (match step.stackAction with
       | StackAction.PUSH => s.callStack ++
           [{ functionName := getFunctionName s.traversalType
              nodeValue := step.nodeValue
              returnAddress := "line " ++ toString step.codeLine }]
       | StackAction.POP => s.callStack.dropLast
       | StackAction.NONE => s.callStack) := by
  cases hsa : step.stackAction <;> cases hnv : step.nodeValue <;> cases ht : step.type <;>
    simp [applyStepState, hsa, hnv, ht]

/-- A `nextStep()` call either leaves the engine untouched or snapshots the state and
applies one step to it. -/
theorem nextStepE_cases (e : ExecutionEngine) :
    nextStepE e = e ∨
    ∃ step i, nextStepE e =
      { e with stateManager :=
          { state := applyStepState e.stateManager.state step i
            history := e.stateManager.state :: e.stateManager.history } } := by
  unfold nextStepE ExecutionEngine.nextStep
  rw [getState_eq]
  by_cases h : (e.steps.length : Int) ≤ e.stateManager.state.currentStepIndex + 1
  · left
    rw [if_pos h]
  · rw [if_neg h]
    cases hs : e.steps[(e.stateManager.state.currentStepIndex + 1).toNat]? with
    | none => left; rfl
    | some s =>
        right
        exact ⟨s, e.stateManager.state.currentStepIndex + 1,
          by simp [ExecutionEngine.applyStep, StateManager.pushHistory]⟩

/-- Forward stepping preserves both an inorder traversal type and the
all-frames-named-`inOrder` property of the call stack. -/
theorem applyN_inorder_frames (e : ExecutionEngine)
    (hty : e.stateManager.state.traversalType = "inorder")
    (hst : ∀ f ∈ e.stateManager.state.callStack, f.functionName = "inOrder") :
    ∀ n : Nat, (applyN e n).stateManager.state.traversalType = "inorder" ∧
      ∀ f ∈ (applyN e n).stateManager.state.callStack, f.functionName = "inOrder" := by
  intro n
  induction n with
  | zero => exact ⟨hty, hst⟩
  | succ n ih =>
      obtain ⟨ihty, ihst⟩ := ih
      have hstep : applyN e (n + 1) = nextStepE (applyN e n) := rfl
      rcases nextStepE_cases (applyN e n) with hcase | ⟨step, i, hcase⟩
      · rw [hstep, hcase]
        exact ⟨ihty, ihst⟩
      · rw [hstep, hcase]
        refine ⟨?_, ?_⟩
        · show (applyStepState _ _ _).traversalType = _
          rw [applyStepState_traversalType]
          exact ihty
        · show ∀ f ∈ (applyStepState _ _ _).callStack, _
          intro f hf
          rw [applyStepState_callStack] at hf
          cases hsa : step.stackAction <;> rw [hsa] at hf <;> simp only [] at hf
          · rcases List.mem_append.mp hf with hf2 | hf2
            · exact ihst f hf2
            · have hfe : f.functionName =
                  getFunctionName (applyN e n).stateManager.state.traversalType := by
                rw [List.mem_singleton.mp hf2]
              rw [hfe, ihty]
              decide
          · exact ihst f ((List.dropLast_sublist _).subset hf)
          · exact ihst f hf

/-- C10: for every engine initialized with any traversal type, `reset()`
leaves the state's `traversalType` at the initial `"inorder"` rather than
restoring the type that was set at initialization, and consequently every
stack frame pushed by subsequent `nextStep()` calls carries the function
name `"inOrder"`, whichever order's step sequence is being replayed. -/
theorem reset_forgets_traversal_type (e : ExecutionEngine) (type : String) (n : Nat) :
    (ExecutionEngine.reset (ExecutionEngine.init e type)).stateManager.state.traversalType =
      "inorder" ∧
    ∀ f ∈ (applyN (ExecutionEngine.reset (ExecutionEngine.init e type)) n).stateManager.state.callStack,
      f.functionName = "inOrder" := by
  refine ⟨rfl, ?_⟩
  exact (applyN_inorder_frames _ rfl (by intro f hf; cases hf) n).2

-- ============================================================
-- C3: concrete traversal outputs on the default tree
-- ============================================================

set_option maxRecDepth 40000 in
/-- C3: on the canonical default 7-node tree, applying every generated step
via `nextStep()` leaves `traversalOutput` equal to `[1,2,3,4,5,6,7]` for
inorder, `[4,2,1,3,6,5,7]` for preorder and `[1,3,2,5,7,6,4]` for postorder. -/
theorem default_tree_traversal_outputs :
    (applyN (ExecutionEngine.init defaultEngine "inorder")
        (ExecutionEngine.init defaultEngine "inorder").steps.length).stateManager.state.traversalOutput =
      [1, 2, 3, 4, 5, 6, 7] ∧
    (applyN (ExecutionEngine.init defaultEngine "preorder")
        (ExecutionEngine.init defaultEngine "preorder").steps.length).stateManager.state.traversalOutput =
      [4, 2, 1, 3, 6, 5, 7] ∧
    (applyN (ExecutionEngine.init defaultEngine "postorder")
        (ExecutionEngine.init defaultEngine "postorder").steps.length).stateManager.state.traversalOutput =
      [1, 3, 2, 5, 7, 6, 4] := by
  refine ⟨by decide, by decide, by decide⟩

-- ============================================================
-- C6: "bogus" initialization versus "inorder"
-- ============================================================

/-- Replacing only the stored `traversalType` label of a state. -/
def retypeState (type : String) (s : AppState) : AppState :=
  { s with traversalType := type }

/-- Replacing the stored `traversalType` label throughout an engine: in the
live state and in every history snapshot. -/
def retype (type : String) (e : ExecutionEngine) : ExecutionEngine :=
  { e with stateManager :=
      { state := retypeState type e.stateManager.state
        history := e.stateManager.history.map (retypeState type) } }

/-- Every state of the engine (live and history) carries the given label. -/
def uniformType (type : String) (e : ExecutionEngine) : Prop :=
  e.stateManager.state.traversalType = type ∧
  ∀ s ∈ e.stateManager.history, s.traversalType = type

/-- Applying `_applyStep` commutes with relabelling the traversal type whenever the two
labels resolve to the same function name. -/
theorem applyStepState_retype (t1 : String) (s : AppState) (step : ExecutionStep) (i : Int)
    (hgf : getFunctionName t1 = getFunctionName s.traversalType) :
    applyStepState (retypeState t1 s) step i = retypeState t1 (applyStepState s step i) := by
  cases hsa : step.stackAction <;> cases hnv : step.nodeValue <;> cases ht : step.type <;>
    simp [applyStepState, retypeState, hsa, hnv, ht, hgf]

/-- A `nextStep()` call commutes with relabelling, flag included, on a label-uniform
engine whose label resolves to the same function name. -/
theorem nextStep_retype (t1 t2 : String) (e : ExecutionEngine)
    (hgf : getFunctionName t1 = getFunctionName t2)
    (hu : uniformType t2 e) :
    ExecutionEngine.nextStep (retype t1 e) =
      ((ExecutionEngine.nextStep e).1, retype t1 (ExecutionEngine.nextStep e).2) := by
  obtain ⟨hu1, hu2⟩ := hu
  unfold ExecutionEngine.nextStep
  simp only [getState_eq]
  have h1 : (retype t1 e).stateManager.state.currentStepIndex =
      e.stateManager.state.currentStepIndex := rfl
  have h2 : (retype t1 e).steps = e.steps := rfl
  rw [h1, h2]
  by_cases hc : (e.steps.length : Int) ≤ e.stateManager.state.currentStepIndex + 1
  · rw [if_pos hc, if_pos hc]
  · rw [if_neg hc, if_neg hc]
    cases hs : e.steps[(e.stateManager.state.currentStepIndex + 1).toNat]? with
    | none => rfl
    | some step =>
        have hcomm := applyStepState_retype t1 e.stateManager.state step
          (e.stateManager.state.currentStepIndex + 1) (by rw [hu1]; exact hgf)
        simp only [ExecutionEngine.applyStep, StateManager.pushHistory, cloneState_eq]
        refine Prod.ext rfl ?_
        show ExecutionEngine.mk _ _ _ = _
        rw [retype]
        simp only [retype, retypeState, List.map_cons]
        rw [show applyStepState { e.stateManager.state with traversalType := t1 } step
            (e.stateManager.state.currentStepIndex + 1) =
          retypeState t1 (applyStepState e.stateManager.state step
            (e.stateManager.state.currentStepIndex + 1)) from hcomm]
        simp [retypeState]

/-- A `previousStep()` call always commutes with relabelling, flag included. -/
theorem prevStep_retype (t1 : String) (e : ExecutionEngine) :
    ExecutionEngine.previousStep (retype t1 e) =
      ((ExecutionEngine.previousStep e).1, retype t1 (ExecutionEngine.previousStep e).2) := by
  unfold ExecutionEngine.previousStep
  simp only [getState_eq]
  have h1 : (retype t1 e).stateManager.state.currentStepIndex =
      e.stateManager.state.currentStepIndex := rfl
  simp only [h1]
  by_cases hc : e.stateManager.state.currentStepIndex < 0
  · rw [if_pos hc, if_pos hc]
  · rw [if_neg hc, if_neg hc]
    have h3 : (retype t1 e).stateManager.history =
        e.stateManager.history.map (retypeState t1) := rfl
    cases hh : e.stateManager.history with
    | nil =>
        simp only [StateManager.popHistory, h3, hh, List.map_nil]
    | cons s rest =>
        simp only [StateManager.popHistory, h3, hh, List.map_cons]
        rfl

/-- A `previousStep()` call either leaves the engine untouched or pops the top
history snapshot into the live state. -/
theorem prevStepE_cases (e : ExecutionEngine) :
    prevStepE e = e ∨
    ∃ s rest, e.stateManager.history = s :: rest ∧
      prevStepE e = { e with stateManager := { state := s, history := rest } } := by
  unfold prevStepE ExecutionEngine.previousStep
  rw [getState_eq]
  by_cases hc : e.stateManager.state.currentStepIndex < 0
  · left
    rw [if_pos hc]
  · rw [if_neg hc]
    cases hh : e.stateManager.history with
    | nil =>
        left
        simp only [StateManager.popHistory, hh]
    | cons s rest =>
        right
        refine ⟨s, rest, rfl, ?_⟩
        simp only [StateManager.popHistory, hh, StateManager.setState]

/-- Forward stepping preserves label uniformity. -/
theorem uniformType_nextStepE (t2 : String) (e : ExecutionEngine)
    (hu : uniformType t2 e) : uniformType t2 (nextStepE e) := by
  obtain ⟨hu1, hu2⟩ := hu
  rcases nextStepE_cases e with hc | ⟨step, i, hc⟩
  · rw [hc]
    exact ⟨hu1, hu2⟩
  · rw [hc]
    refine ⟨?_, ?_⟩
    · show (applyStepState _ _ _).traversalType = t2
      rw [applyStepState_traversalType]
      exact hu1
    · intro s hsmem
      rcases List.mem_cons.mp hsmem with rfl | hs2
      · exact hu1
      · exact hu2 s hs2

/-- Backward stepping preserves label uniformity. -/
theorem uniformType_prevStepE (t2 : String) (e : ExecutionEngine)
    (hu : uniformType t2 e) : uniformType t2 (prevStepE e) := by
  obtain ⟨hu1, hu2⟩ := hu
  rcases prevStepE_cases e with hc | ⟨s, rest, hh, hc⟩
  · rw [hc]
    exact ⟨hu1, hu2⟩
  · rw [hc]
    refine ⟨?_, ?_⟩
    · exact hu2 s (hh ▸ List.mem_cons_self s rest)
    · intro x hx
      exact hu2 x (hh ▸ List.mem_cons.mpr (Or.inr hx))

/-- Any interleaved stepping run preserves label uniformity. -/
theorem uniformType_runOps (t2 : String) :
    ∀ (ops : List Bool) (e : ExecutionEngine),
      uniformType t2 e → uniformType t2 (runOps e ops) := by
  intro ops
  induction ops with
  | nil => intro e hu; exact hu
  | cons b rest ih =>
      intro e hu
      cases b
      · exact ih _ (uniformType_prevStepE t2 e hu)
      · exact ih _ (uniformType_nextStepE t2 e hu)

/-- Any interleaved stepping run commutes with relabelling the traversal
type, as long as the two labels resolve to the same function name. -/
theorem runOps_retype (t1 t2 : String) (hgf : getFunctionName t1 = getFunctionName t2) :
    ∀ (ops : List Bool) (e : ExecutionEngine), uniformType t2 e →
      runOps (retype t1 e) ops = retype t1 (runOps e ops) := by
  intro ops
  induction ops with
  | nil => intro e _; rfl
  | cons b rest ih =>
      intro e hu
      cases b
      · show runOps (prevStepE (retype t1 e)) rest = retype t1 (runOps (prevStepE e) rest)
        have hcomm : prevStepE (retype t1 e) = retype t1 (prevStepE e) :=
          congrArg Prod.snd (prevStep_retype t1 e)
        rw [hcomm]
        exact ih _ (uniformType_prevStepE t2 e hu)
      · show runOps (nextStepE (retype t1 e)) rest = retype t1 (runOps (nextStepE e) rest)
        have hcomm : nextStepE (retype t1 e) = retype t1 (nextStepE e) :=
          congrArg Prod.snd (nextStep_retype t1 t2 e hgf hu)
        rw [hcomm]
        exact ih _ (uniformType_nextStepE t2 e hu)

set_option maxRecDepth 40000 in
/-- C6 counterexample: initializing the default engine with the unrecognized
type `"bogus"` does not produce the same `AppState` as initializing with
`"inorder"`: the stored `traversalType` keeps the raw string `"bogus"`, so
the two states differ (also under `statesEqual`). -/
theorem bogus_init_state_differs :
    (ExecutionEngine.init defaultEngine "bogus").stateManager.state ≠
      (ExecutionEngine.init defaultEngine "inorder").stateManager.state ∧
    (ExecutionEngine.init defaultEngine "bogus").stateManager.state.traversalType = "bogus" ∧
    statesEqual (ExecutionEngine.init defaultEngine "bogus").stateManager.state
      (ExecutionEngine.init defaultEngine "inorder").stateManager.state = false :=
  ⟨by decide, by decide, by decide⟩

set_option maxRecDepth 40000 in
/-- C6 amended: initializing the default engine with `"bogus"` produces the
same generated step sequence as `"inorder"`, and after any interleaved
sequence of `nextStep()`/`previousStep()` calls the two engines agree on
everything except the stored `traversalType` label (which stays `"bogus"`),
with both calls reporting identical success flags at every point. -/
theorem bogus_init_behaves_as_inorder_except_label (ops : List Bool) :
    (ExecutionEngine.init defaultEngine "bogus").steps =
      (ExecutionEngine.init defaultEngine "inorder").steps ∧
    (runOps (ExecutionEngine.init defaultEngine "bogus") ops).stateManager.state =
      retypeState "bogus"
        ((runOps (ExecutionEngine.init defaultEngine "inorder") ops).stateManager.state) ∧
    (ExecutionEngine.nextStep (runOps (ExecutionEngine.init defaultEngine "bogus") ops)).1 =
      (ExecutionEngine.nextStep (runOps (ExecutionEngine.init defaultEngine "inorder") ops)).1 ∧
    (ExecutionEngine.previousStep (runOps (ExecutionEngine.init defaultEngine "bogus") ops)).1 =
      (ExecutionEngine.previousStep (runOps (ExecutionEngine.init defaultEngine "inorder") ops)).1 := by
  have hretype : ExecutionEngine.init defaultEngine "bogus" =
      retype "bogus" (ExecutionEngine.init defaultEngine "inorder") := by decide
  have hgf : getFunctionName "bogus" = getFunctionName "inorder" := by decide
  have hu : uniformType "inorder" (ExecutionEngine.init defaultEngine "inorder") := by
    refine ⟨rfl, ?_⟩
    intro s hmem
    rw [show (ExecutionEngine.init defaultEngine "inorder").stateManager.history = []
      from rfl] at hmem
    cases hmem
  have hrun := runOps_retype "bogus" "inorder" hgf ops
    (ExecutionEngine.init defaultEngine "inorder") hu
  have huN := uniformType_runOps "inorder" ops (ExecutionEngine.init defaultEngine "inorder") hu
  rw [hretype]
  refine ⟨rfl, ?_, ?_, ?_⟩
  · rw [hrun]
    rfl
  · rw [hrun, nextStep_retype "bogus" "inorder" _ hgf huN]
  · rw [hrun, prevStep_retype "bogus" _]
